import Mathlib

/-
Verification development for the tag co-occurrence graph core:
`src/graph/builder.py` (class `TagCooccurrenceGraph`) and
`src/graph/analytics.py` (class `GraphAnalytics`).

Modelling conventions (shallow embedding):
* A cleaned record (`item`) is its `tags` list plus its timestamp.  The Python
  code parses the `time` string with `datetime.fromisoformat` inside
  `try/except`; we abstract the parse result as `Option Int` (seconds):
  `none` models a missing or unparseable `time` field, `some t` a parsed
  timestamp.  `timedelta(days = d)` is `d * 86400` seconds.
* `collections.Counter` is modelled as an insertion-ordered association list
  `List (α × Nat)`; `bump` is `c[k] += 1` (CPython dicts preserve insertion
  order, and updating an existing key keeps its position).
* Python's float division `(recent - historical) / (historical + 1)` is
  modelled exactly: a `Growth` value stores the integer numerator and the
  historical weight, the denominator being `hw + 1 > 0`.  Comparisons on
  `Growth` are the comparisons of the represented rational numbers.
* `list.sort(key = ..., reverse = True)`, `sorted` and `Counter.most_common`
  are stable sorts; we model them with `List.insertionSort` (also stable, and
  a stable sort of a list under a total preorder is unique).
* `set(list(a.keys()) + list(b.keys()))` iterates in an unspecified,
  hash-dependent order in CPython; we model it as first-occurrence order
  (`dedupFirst`).  Only the relative order of equal-growth edges depends on
  this choice.
-/

/-- A cleaned record as consumed by the graph core: `tags` plus the parsed
timestamp (`none` when the `time` field is missing or unparseable). -/
structure Item where
  tags : List String
  time : Option Int
deriving Repr, DecidableEq

/-- `itertools.combinations(l, 2)`: all pairs of positions `i < j`, in the
order Python emits them. -/
def combinations2 {α : Type} : List α → List (α × α)
  | [] => []
  | x :: xs => xs.map (fun y => (x, y)) ++ combinations2 xs

/-- Lexicographic comparison of two character lists by code point, the order
Python compares strings with. -/
def charListLe : List Char → List Char → Bool
  | [], _ => true
  | _ :: _, [] => false
  | a :: as, b :: bs =>
    if a < b then true
    else if b < a then false
    else charListLe as bs

/-- Python's `<=` on strings. -/
def pyLe (a b : String) : Bool := charListLe a.data b.data

/-- Python's `<` on strings. -/
def pyLt (a b : String) : Bool := pyLe a b && !(pyLe b a)

instance : DecidableRel (fun a b : String => pyLe a b = true) := fun _ _ => by
  infer_instance

/-- Python's `sorted` on a list of strings (stable sort under the code-point
lexicographic order). -/
def pySorted (l : List String) : List String :=
  List.insertionSort (fun a b => pyLe a b = true) l

/-- The per-record pair generation `combinations(sorted(tags), 2)` shared by
`build_graph`, `find_rising_edges` and `_fallback_top_edges`. -/
def tagPairs (tags : List String) : List (String × String) :=
  combinations2 (pySorted tags)

/-- `collections.Counter` increment `c[k] += 1`: bump an existing key in
place, or append a fresh key with count 1. -/
def bump {α : Type} [DecidableEq α] : List (α × Nat) → α → List (α × Nat)
  | [], k => [(k, 1)]
  | (k₀, n) :: rest, k =>
    if k₀ = k then (k₀, n + 1) :: rest else (k₀, n) :: bump rest k

/-- `Counter.get(k, 0)` / `c[k]` lookup. -/
def getCount {α : Type} [DecidableEq α] : List (α × Nat) → α → Nat
  | [], _ => 0
  | (k₀, n) :: rest, k => if k₀ = k then n else getCount rest k

/-- `Counter.most_common(n)`: entries sorted by count descending (stable, so
ties keep insertion order), truncated to `n`. -/
def mostCommon {α : Type} (c : List (α × Nat)) (n : Nat) : List (α × Nat) :=
  (List.insertionSort (fun a b => b.2 ≤ a.2) c).take n

/-- The graph built by `TagCooccurrenceGraph.build_graph`: the
`node_occurrences` counter (networkx node attribute `weight`) and the
`edge_weights` counter (networkx edge attribute `weight`).  Every edge
endpoint is a key of `nodes`, so the two counters determine the
networkx graph exactly. -/
structure Graph where
  nodes : List (String × Nat)
  edges : List ((String × String) × Nat)
deriving Repr, DecidableEq

/-- One iteration of the `for item in self.items` loop of `build_graph`:
records with fewer than two tags are skipped entirely (`continue`), others
bump `node_occurrences` once per tag occurrence and `edge_weights` once per
generated pair. -/
def buildStep (g : Graph) (item : Item) : Graph :=
  if item.tags.length < 2 then g
  else
    { nodes := item.tags.foldl bump g.nodes
      edges := (tagPairs item.tags).foldl bump g.edges }

/-- `TagCooccurrenceGraph.build_graph` over an in-memory record collection. -/
def build_graph (items : List Item) : Graph :=
  items.foldl buildStep { nodes := [], edges := [] }

/-- Exact value of the Python float `(recent_weight - historical_weight) /
(historical_weight + 1)`: numerator `num`, denominator `hw + 1` (always
positive). -/
structure Growth where
  num : Int
  hw : Nat
deriving Repr, DecidableEq

/-- The denominator `historical_weight + 1` of a growth value. -/
def Growth.den (g : Growth) : Int := (g.hw : Int) + 1

/-- The rational number a `Growth` value denotes. -/
def Growth.toRat (g : Growth) : Rat := (g.num : Rat) / (g.den : Rat)

/-- `growth = (recent_weight - historical_weight) / (historical_weight + 1)`
from `find_rising_edges`. -/
def growthOf (rw hw : Nat) : Growth := ⟨(rw : Int) - (hw : Int), hw⟩

/-- The per-edge `details` dict: `{recent_count, historical_count,
growth_rate}` in rising mode, `{total_count, fallback_reason}` in fallback
mode. -/
inductive Details where
  | rising (recent_count historical_count : Nat) (growth_rate : Growth)
  | fallback (total_count : Nat) (fallback_reason : String)
deriving Repr, DecidableEq

/-- One entry `(tag1, tag2, score, details)` of the returned edge list. -/
structure EdgeOut where
  tag1 : String
  tag2 : String
  score : Growth
  details : Details
deriving Repr, DecidableEq

/-- The `window_stats` dict.  `anchor_now` is the anchor timestamp
(`none` models the literal string `"N/A"`); the two `edges_count` fields are
`none` when the corresponding keys are absent (the no-timestamp fallback
path builds the dict without them). -/
structure WindowStats where
  anchor_now : Option Int
  recent_count : Nat
  historical_count : Nat
  total_count : Nat
  recent_edges_count : Option Nat
  historical_edges_count : Option Nat
  mode : String
deriving Repr, DecidableEq

/-- Seconds in a day: `timedelta(days = d)` is `d * daySecs` seconds. -/
def daySecs : Int := 86400

/-- The `items_with_time` list: records whose `time` parsed, in input
order, paired with their timestamp. -/
def itemsWithTime (items : List Item) : List (Item × Int) :=
  items.filterMap (fun it => it.time.map (fun t => (it, t)))

/-- `anchor_now = max(t for _, t in items_with_time)` (the value is only
used when the list is non-empty; `0` is a dummy for `[]`). -/
def anchorNow (l : List (Item × Int)) : Int :=
  match l with
  | [] => 0
  | (_, t) :: rest => rest.foldl (fun m p => max m p.2) t

/-- Which window a timestamp falls into: `time_obj >= recent_threshold` is
recent, `elif time_obj >= historical_threshold` is historical, else
neither. -/
inductive Window where
  | recent
  | historical
  | neither
deriving Repr, DecidableEq

/-- The window classification of `find_rising_edges` (lines 148–155):
thresholds are `anchor_now - recent_days` and
`anchor_now - (recent_days + historical_days)` days. -/
def classifyWindow (t anchor recent_days historical_days : Int) : Window :=
  if anchor - recent_days * daySecs ≤ t then Window.recent
  else if anchor - (recent_days + historical_days) * daySecs ≤ t then Window.historical
  else Window.neither

/-- Accumulator of the window loop of `find_rising_edges`: the three edge
counters plus `len(recent_items)` and `len(historical_items)`. -/
structure WinState where
  recent_edges : List ((String × String) × Nat)
  historical_edges : List ((String × String) × Nat)
  all_edges : List ((String × String) × Nat)
  recent_count : Nat
  historical_count : Nat
deriving Repr, DecidableEq

/-- One iteration of the window loop: records with fewer than two tags are
skipped (`continue`); otherwise all pairs are counted globally and then in
the window selected by `classifyWindow`. -/
def winStep (anchor recent_days historical_days : Int) (st : WinState) (p : Item × Int) : WinState :=
  if p.1.tags.length < 2 then st
  else
    let pairs := tagPairs p.1.tags
    let allEdges := pairs.foldl bump st.all_edges
    match classifyWindow p.2 anchor recent_days historical_days with
    | Window.recent =>
      { st with all_edges := allEdges
                recent_edges := pairs.foldl bump st.recent_edges
                recent_count := st.recent_count + 1 }
    | Window.historical =>
      { st with all_edges := allEdges
                historical_edges := pairs.foldl bump st.historical_edges
                historical_count := st.historical_count + 1 }
    | Window.neither => { st with all_edges := allEdges }

/-- The state after the whole window loop. -/
def winState (items : List Item) (recent_days historical_days : Int) : WinState :=
  let iwt := itemsWithTime items
  iwt.foldl (winStep (anchorNow iwt) recent_days historical_days) ⟨[], [], [], 0, 0⟩

/-- The `window_stats` dict as first assembled (mode `"rising"`). -/
def computedStats (items : List Item) (recent_days historical_days : Int) : WindowStats :=
  let iwt := itemsWithTime items
  let st := winState items recent_days historical_days
  { anchor_now := some (anchorNow iwt)
    recent_count := st.recent_count
    historical_count := st.historical_count
    total_count := iwt.length
    recent_edges_count := some st.recent_edges.length
    historical_edges_count := some st.historical_edges.length
    mode := "rising" }

/-- First-occurrence deduplication: our model of iterating over
`set(list(recent.keys()) + list(historical.keys()))` (CPython's actual set
order is hash-dependent; only the tie order of equal growths depends on this
choice). -/
def dedupFirstAux {α : Type} [DecidableEq α] : List α → List α → List α
  | _, [] => []
  | seen, x :: xs =>
    if x ∈ seen then dedupFirstAux seen xs
    else x :: dedupFirstAux (x :: seen) xs

/-- First-occurrence deduplication of a list. -/
def dedupFirst {α : Type} [DecidableEq α] (l : List α) : List α :=
  dedupFirstAux [] l

/-- The candidate edges of the rising computation. -/
def risingCandidates (st : WinState) : List (String × String) :=
  dedupFirst (st.recent_edges.map Prod.fst ++ st.historical_edges.map Prod.fst)

/-- The unsorted `rising_edges` list: for each candidate edge, keep it iff
`growth > 0 and recent_weight >= 2` (the growth is positive iff its
numerator is, the denominator `hw + 1` being positive). -/
def risingListOf (st : WinState) : List EdgeOut :=
  (risingCandidates st).filterMap (fun e =>
    let rw := getCount st.recent_edges e
    let hw := getCount st.historical_edges e
    let growth := growthOf rw hw
    if 0 < growth.num ∧ 2 ≤ rw then
      some ⟨e.1, e.2, growth, Details.rising rw hw growth⟩
    else none)

/-- The order in which `rising_edges.sort(key = lambda x: x[2],
reverse = True)` sorts: descending by score (the scores compare as the
rational numbers they denote, by cross-multiplication over the positive
denominators). -/
def descScore (a b : EdgeOut) : Prop :=
  b.score.num * a.score.den ≤ a.score.num * b.score.den

instance : DecidableRel descScore := fun a b => by
  unfold descScore
  infer_instance

/-- `rising_edges.sort(key = lambda x: x[2], reverse = True)`: stable sort,
descending by score. -/
def sortRising (l : List EdgeOut) : List EdgeOut :=
  List.insertionSort descScore l

/-- `GraphAnalytics._fallback_top_edges`: global top-`top_n` edges by
co-occurrence count, score `0.0`, details `{total_count, fallback_reason:
"insufficient_window_samples"}`; recomputes the global counter over all
records when `all_edges` is `None`, and builds a fresh stats dict (without
the per-window edge-count keys) when `window_stats` is `None`. -/
def fallback_top_edges (items : List Item) (top_n : Nat)
    (all_edges : Option (List ((String × String) × Nat)))
    (window_stats : Option WindowStats) : List EdgeOut × WindowStats :=
  let allEdges := match all_edges with
    | some c => c
    | none =>
      items.foldl (fun c it =>
        if 2 ≤ it.tags.length then (tagPairs it.tags).foldl bump c else c) []
  let top := (mostCommon allEdges top_n).map (fun p =>
    ⟨p.1.1, p.1.2, ⟨0, 0⟩, Details.fallback p.2 "insufficient_window_samples"⟩)
  let stats := match window_stats with
    | some s => s
    | none =>
      { anchor_now := none
        recent_count := 0
        historical_count := 0
        total_count := items.length
        recent_edges_count := none
        historical_edges_count := none
        mode := "fallback" }
  (top, stats)

/-- `GraphAnalytics.find_rising_edges`. -/
def find_rising_edges (items : List Item) (recent_days historical_days : Int)
    (top_n : Nat) : List EdgeOut × WindowStats :=
  let iwt := itemsWithTime items
  if iwt.isEmpty then fallback_top_edges items top_n none none
  else
    let st := winState items recent_days historical_days
    let stats := computedStats items recent_days historical_days
    if st.recent_count < 5 ∨ st.historical_count < 5 then
      fallback_top_edges items top_n (some st.all_edges)
        (some { stats with mode := "fallback" })
    else
      let rising := sortRising (risingListOf st)
      if rising.isEmpty then
        fallback_top_edges items top_n (some st.all_edges)
          (some { stats with mode := "fallback" })
      else (rising.take top_n, stats)

/-
Counter lemmas.
-/

/-- Number of occurrences of `k` in `l` (propositional equality version,
used throughout to avoid mixing `BEq` instances). -/
def countOcc {α : Type} [DecidableEq α] : List α → α → Nat
  | [], _ => 0
  | x :: xs, k => (if x = k then 1 else 0) + countOcc xs k

/-- `countOcc` distributes over append. -/
theorem countOcc_append {α : Type} [DecidableEq α] (l₁ l₂ : List α) (k : α) :
    countOcc (l₁ ++ l₂) k = countOcc l₁ k + countOcc l₂ k := by
  induction l₁ with
  | nil => simp [countOcc]
  | cons x xs ih =>
    simp only [List.cons_append, countOcc, List.append_eq, ih]
    omega

/-- A key that does not occur has count 0. -/
theorem countOcc_eq_zero_of_not_mem {α : Type} [DecidableEq α] {l : List α} {k : α}
    (h : k ∉ l) : countOcc l k = 0 := by
  induction l with
  | nil => rfl
  | cons x xs ih =>
    have hx : ¬ x = k := fun hh => h (by simp [hh])
    simp [countOcc, hx, ih (fun hh => h (by simp [hh]))]

/-- In a duplicate-free list, a member has count 1. -/
theorem countOcc_eq_one_of_mem {α : Type} [DecidableEq α] {l : List α} {k : α}
    (hnd : l.Nodup) (h : k ∈ l) : countOcc l k = 1 := by
  induction l with
  | nil => simp at h
  | cons x xs ih =>
    rcases List.mem_cons.mp h with hh | hh
    · subst hh
      simp [countOcc, countOcc_eq_zero_of_not_mem (List.nodup_cons.mp hnd).1]
    · have hx : ¬ x = k := by
        intro hxk
        subst hxk
        exact (List.nodup_cons.mp hnd).1 hh
      simp [countOcc, hx, ih (List.nodup_cons.mp hnd).2 hh]

/-- A key occurs iff its count is positive. -/
theorem countOcc_pos_iff_mem {α : Type} [DecidableEq α] (l : List α) (k : α) :
    0 < countOcc l k ↔ k ∈ l := by
  induction l with
  | nil => simp [countOcc]
  | cons x xs ih =>
    by_cases hx : x = k
    · subst hx
      simp [countOcc]
    · have h2 : ¬ k = x := fun hh => hx hh.symm
      simp [countOcc, hx, h2, ih]

/-- Bumping key `k` raises the count of `k` by one and leaves others. -/
theorem getCount_bump {α : Type} [DecidableEq α] (c : List (α × Nat)) (k k₀ : α) :
    getCount (bump c k) k₀ = getCount c k₀ + (if k₀ = k then 1 else 0) := by
  induction c with
  | nil =>
    by_cases h : k₀ = k
    · subst h
      simp [bump, getCount]
    · have h2 : ¬ k = k₀ := fun hh => h hh.symm
      simp [bump, getCount, h, h2]
  | cons p rest ih =>
    obtain ⟨k₁, n⟩ := p
    by_cases h1 : k₁ = k
    · subst h1
      by_cases h2 : k₁ = k₀
      · subst h2
        simp [bump, getCount]
      · have h3 : ¬ k₀ = k₁ := fun hh => h2 hh.symm
        simp [bump, getCount, h2, h3]
    · by_cases h2 : k₁ = k₀
      · subst h2
        simp [bump, getCount, h1]
      · simp [bump, getCount, h1, h2, ih]

/-- Counting a whole list of keys into a counter. -/
theorem getCount_foldl_bump {α : Type} [DecidableEq α] (l : List α) (c : List (α × Nat)) (k : α) :
    getCount (l.foldl bump c) k = getCount c k + countOcc l k := by
  induction l generalizing c with
  | nil => simp [countOcc]
  | cons x xs ih =>
    simp only [List.foldl_cons, ih, getCount_bump, countOcc]
    by_cases h : k = x
    · subst h
      simp only [if_pos rfl]
      omega
    · have h2 : ¬ x = k := fun hh => h hh.symm
      simp only [h, h2, if_false]
      omega

/-- `bump` never yields the empty counter. -/
theorem bump_ne_nil {α : Type} [DecidableEq α] (c : List (α × Nat)) (k : α) :
    bump c k ≠ [] := by
  cases c with
  | nil => simp [bump]
  | cons p rest =>
    obtain ⟨k₀, n⟩ := p
    by_cases h : k₀ = k <;> simp [bump, h]

/-- Folding `bump` over any list keeps a non-empty counter non-empty. -/
theorem foldl_bump_ne_nil_of_ne_nil {α : Type} [DecidableEq α] (l : List α)
    (c : List (α × Nat)) (hc : c ≠ []) : l.foldl bump c ≠ [] := by
  induction l generalizing c with
  | nil => simpa using hc
  | cons x xs ih => exact ih (bump c x) (bump_ne_nil c x)

/-- Folding `bump` over a non-empty list yields a non-empty counter. -/
theorem foldl_bump_ne_nil_of_list_ne_nil {α : Type} [DecidableEq α] (l : List α)
    (c : List (α × Nat)) (hl : l ≠ []) : l.foldl bump c ≠ [] := by
  cases l with
  | nil => exact absurd rfl hl
  | cons x xs =>
    simpa using foldl_bump_ne_nil_of_ne_nil xs (bump c x) (bump_ne_nil c x)

/-- The keys of `bump c k`: unchanged when `k` is present, else `k` appended. -/
theorem map_fst_bump {α : Type} [DecidableEq α] (c : List (α × Nat)) (k : α) :
    (bump c k).map Prod.fst =
      (if k ∈ c.map Prod.fst then c.map Prod.fst else c.map Prod.fst ++ [k]) := by
  induction c with
  | nil => simp [bump]
  | cons p rest ih =>
    obtain ⟨k₀, n⟩ := p
    by_cases h : k₀ = k
    · subst h
      simp [bump]
    · have hne : ¬ k = k₀ := fun hh => h hh.symm
      by_cases hmem : k ∈ rest.map Prod.fst <;>
        simp [bump, h, hne, hmem, ih]

/-- All counts produced by `bump` are positive. -/
theorem bump_pos {α : Type} [DecidableEq α] (c : List (α × Nat)) (k : α)
    (hc : ∀ p ∈ c, 0 < p.2) : ∀ p ∈ bump c k, 0 < p.2 := by
  induction c with
  | nil =>
    intro p hp
    simp [bump] at hp
    simp [hp]
  | cons q rest ih =>
    obtain ⟨k₀, n⟩ := q
    intro p hp
    by_cases h : k₀ = k
    · subst h
      simp [bump] at hp
      rcases hp with hp | hp
      · simp [hp]
      · exact hc p (by simp [hp])
    · simp [bump, h] at hp
      rcases hp with hp | hp
      · subst hp
        exact hc (k₀, n) (by simp)
      · exact ih (fun q hq => hc q (by simp [hq])) p hp

/-- Folding `bump` preserves positivity of all counts. -/
theorem foldl_bump_pos {α : Type} [DecidableEq α] (l : List α) (c : List (α × Nat))
    (hc : ∀ p ∈ c, 0 < p.2) : ∀ p ∈ l.foldl bump c, 0 < p.2 := by
  induction l generalizing c with
  | nil => simpa using hc
  | cons x xs ih => exact ih (bump c x) (bump_pos c x hc)

/-- In a counter with positive counts, a key is present iff its count is
positive. -/
theorem mem_keys_iff_getCount_pos {α : Type} [DecidableEq α] (c : List (α × Nat))
    (hc : ∀ p ∈ c, 0 < p.2) (k : α) :
    k ∈ c.map Prod.fst ↔ 0 < getCount c k := by
  induction c with
  | nil => simp [getCount]
  | cons p rest ih =>
    obtain ⟨k₀, n⟩ := p
    by_cases h : k₀ = k
    · subst h
      have := hc (k₀, n) (by simp)
      simp [getCount, this]
    · have hne : ¬ k = k₀ := fun hh => h hh.symm
      simp [getCount, h, hne, ih (fun q hq => hc q (by simp [hq]))]

/-- Keys of `bump` stay duplicate-free. -/
theorem nodup_keys_bump {α : Type} [DecidableEq α] (c : List (α × Nat)) (k : α)
    (hc : (c.map Prod.fst).Nodup) : ((bump c k).map Prod.fst).Nodup := by
  rw [map_fst_bump]
  by_cases hmem : k ∈ c.map Prod.fst
  · simpa [hmem]
  · simp only [hmem, if_false]
    rw [List.nodup_append]
    refine ⟨hc, List.nodup_singleton k, fun a ha hb => ?_⟩
    simp at hb
    exact hmem (hb ▸ ha)

/-- Folding `bump` keeps keys duplicate-free. -/
theorem nodup_keys_foldl_bump {α : Type} [DecidableEq α] (l : List α) (c : List (α × Nat))
    (hc : (c.map Prod.fst).Nodup) : ((l.foldl bump c).map Prod.fst).Nodup := by
  induction l generalizing c with
  | nil => simpa
  | cons x xs ih => exact ih (bump c x) (nodup_keys_bump c x hc)

/-- A property of all keys is preserved by `bump` with a key satisfying it. -/
theorem keys_prop_bump {α : Type} [DecidableEq α] (P : α → Prop) (c : List (α × Nat)) (k : α)
    (hc : ∀ p ∈ c, P p.1) (hk : P k) : ∀ p ∈ bump c k, P p.1 := by
  induction c with
  | nil =>
    intro p hp
    simp [bump] at hp
    simp [hp, hk]
  | cons q rest ih =>
    obtain ⟨k₀, n⟩ := q
    intro p hp
    by_cases h : k₀ = k
    · subst h
      simp [bump] at hp
      rcases hp with hp | hp
      · subst hp
        exact hc (k₀, n) (by simp)
      · exact hc p (by simp [hp])
    · simp [bump, h] at hp
      rcases hp with hp | hp
      · subst hp
        exact hc (k₀, n) (by simp)
      · exact ih (fun q hq => hc q (by simp [hq])) p hp

/-- A property of all keys is preserved by folding `bump` over keys
satisfying it. -/
theorem keys_prop_foldl_bump {α : Type} [DecidableEq α] (P : α → Prop) (l : List α)
    (c : List (α × Nat)) (hc : ∀ p ∈ c, P p.1) (hl : ∀ k ∈ l, P k) :
    ∀ p ∈ l.foldl bump c, P p.1 := by
  induction l generalizing c with
  | nil => exact hc
  | cons x xs ih =>
    exact ih (bump c x) (keys_prop_bump P c x hc (hl x (by simp)))
      (fun k hk => hl k (by simp [hk]))

/-
String order lemmas (Python's code-point lexicographic order).
-/

/-- `charListLe` is reflexive. -/
theorem charListLe_refl : ∀ x : List Char, charListLe x x = true := by
  intro x
  induction x with
  | nil => rfl
  | cons a as ih => simp [charListLe, ih]

/-- `charListLe` is total. -/
theorem charListLe_total : ∀ x y : List Char, charListLe x y = true ∨ charListLe y x = true := by
  intro x
  induction x with
  | nil => intro y; left; rfl
  | cons a as ih =>
    intro y
    cases y with
    | nil => right; rfl
    | cons b bs =>
      rcases lt_trichotomy a b with h | h | h
      · left
        simp [charListLe, h]
      · subst h
        rcases ih bs with h2 | h2
        · left
          simp [charListLe, h2]
        · right
          simp [charListLe, h2]
      · right
        simp [charListLe, h]

/-- `charListLe` is transitive. -/
theorem charListLe_trans : ∀ x y z : List Char, charListLe x y = true →
    charListLe y z = true → charListLe x z = true := by
  intro x
  induction x with
  | nil => intro y z _ _; rfl
  | cons a as ih =>
    intro y z hxy hyz
    cases y with
    | nil => simp [charListLe] at hxy
    | cons b bs =>
      cases z with
      | nil => simp [charListLe] at hyz
      | cons c cs =>
        simp only [charListLe] at hxy hyz ⊢
        by_cases hab : a < b
        · by_cases hbc : b < c
          · simp [lt_trans hab hbc]
          · by_cases hcb : c < b
            · simp [hbc, hcb] at hyz
            · have hbceq : b = c := le_antisymm (not_lt.mp hcb) (not_lt.mp hbc)
              subst hbceq
              simp [hab]
        · by_cases hba : b < a
          · simp [hab, hba] at hxy
          · have habeq : a = b := le_antisymm (not_lt.mp hba) (not_lt.mp hab)
            subst habeq
            simp only [lt_irrefl, if_false] at hxy
            by_cases hac : a < c
            · simp [hac]
            · by_cases hca : c < a
              · simp [hac, hca] at hyz
              · have haceq : a = c := le_antisymm (not_lt.mp hca) (not_lt.mp hac)
                subst haceq
                simp only [lt_irrefl, if_false] at hyz ⊢
                exact ih bs cs hxy hyz

/-- `charListLe` both ways forces equality. -/
theorem charListLe_antisymm : ∀ x y : List Char, charListLe x y = true →
    charListLe y x = true → x = y := by
  intro x
  induction x with
  | nil =>
    intro y _ hyx
    cases y with
    | nil => rfl
    | cons b bs => simp [charListLe] at hyx
  | cons a as ih =>
    intro y hxy hyx
    cases y with
    | nil => simp [charListLe] at hxy
    | cons b bs =>
      rcases lt_trichotomy a b with h | h | h
      · simp [charListLe, lt_asymm h, h] at hyx
      · subst h
        simp [charListLe, lt_irrefl] at hxy hyx
        rw [ih bs hxy hyx]
      · simp [charListLe, lt_asymm h, h] at hxy

/-- `pyLe` is reflexive. -/
theorem pyLe_refl (a : String) : pyLe a a = true := charListLe_refl a.data

/-- `pyLe` is total. -/
theorem pyLe_total (a b : String) : pyLe a b = true ∨ pyLe b a = true :=
  charListLe_total a.data b.data

/-- `pyLe` is transitive. -/
theorem pyLe_trans {a b c : String} (h1 : pyLe a b = true) (h2 : pyLe b c = true) :
    pyLe a c = true :=
  charListLe_trans a.data b.data c.data h1 h2

/-- `pyLe` both ways forces equality of the strings. -/
theorem pyLe_antisymm {a b : String} (h1 : pyLe a b = true) (h2 : pyLe b a = true) :
    a = b := by
  cases a with
  | mk da =>
    cases b with
    | mk db =>
      have := charListLe_antisymm da db h1 h2
      simp [this]

/-- `pyLt` unfolded. -/
theorem pyLt_iff (a b : String) : pyLt a b = true ↔ pyLe a b = true ∧ a ≠ b := by
  constructor
  · intro h
    simp [pyLt] at h
    refine ⟨h.1, fun hh => ?_⟩
    subst hh
    exact absurd (pyLe_refl a) (by simpa using h.2)
  · rintro ⟨h1, h2⟩
    have hba : pyLe b a = false :=
      Bool.eq_false_iff.mpr (fun hcon => h2 (pyLe_antisymm h1 hcon))
    simp [pyLt, h1, hba]

instance : IsTotal String (fun a b : String => pyLe a b = true) := ⟨pyLe_total⟩

instance : IsTrans String (fun a b : String => pyLe a b = true) :=
  ⟨fun _ _ _ => pyLe_trans⟩

/-
pySorted lemmas.
-/

/-- `pySorted` is a permutation of its input. -/
theorem pySorted_perm (l : List String) : (pySorted l).Perm l :=
  List.perm_insertionSort _ l

/-- `pySorted` output is pairwise `pyLe`-ordered. -/
theorem pySorted_pairwise (l : List String) :
    (pySorted l).Pairwise (fun a b => pyLe a b = true) :=
  List.sorted_insertionSort _ l

/-- On a duplicate-free list, `pySorted` output is pairwise strictly
increasing. -/
theorem pySorted_pairwise_lt (l : List String) (hl : l.Nodup) :
    (pySorted l).Pairwise (fun a b => pyLt a b = true) := by
  have hnd : (pySorted l).Nodup := ((pySorted_perm l).nodup_iff).mpr hl
  have hp := pySorted_pairwise l
  have := List.Pairwise.and hp hnd
  exact this.imp (fun h => (pyLt_iff _ _).mpr ⟨h.1, h.2⟩)

/-
combinations2 / tagPairs lemmas.
-/

/-- Pairs generated by `combinations2` respect any pairwise relation of the
underlying list. -/
theorem pairwise_combinations2 {α : Type} (R : α → α → Prop) :
    ∀ l : List α, l.Pairwise R → ∀ p ∈ combinations2 l, R p.1 p.2 := by
  intro l
  induction l with
  | nil =>
    intro _ p hp
    simp [combinations2] at hp
  | cons a t ih =>
    intro hp p hmem
    simp only [combinations2, List.mem_append] at hmem
    rcases hmem with h | h
    · obtain ⟨z, hz, rfl⟩ := List.mem_map.mp h
      exact (List.pairwise_cons.mp hp).1 z hz
    · exact ih (List.Pairwise.of_cons hp) p h

/-- A list with at least two elements generates at least one pair. -/
theorem combinations2_ne_nil {α : Type} :
    ∀ l : List α, 2 ≤ l.length → combinations2 l ≠ [] := by
  intro l h
  match l, h with
  | a :: b :: t, _ => simp [combinations2]

/-- Counting a pair among `(a, z)` for `z` in `t`. -/
theorem count_map_pair (a x y : String) (t : List String) :
    countOcc (t.map (fun z => (a, z))) (x, y) = if x = a then countOcc t y else 0 := by
  induction t with
  | nil => simp [countOcc]
  | cons z zs ih =>
    simp only [List.map_cons, countOcc, ih, Prod.mk.injEq]
    by_cases hx : x = a
    · subst hx
      by_cases hy : z = y
      · subst hy
        simp
      · simp [hy]
    · have h2 : ¬ (a = x ∧ z = y) := fun hh => hx hh.1.symm
      simp [hx, h2]

/-- On a strictly increasing list, `combinations2` contains each pair of
members `x < y` exactly once and nothing else. -/
theorem count_combinations2 :
    ∀ l : List String, l.Pairwise (fun u v => pyLt u v = true) →
    ∀ x y : String, countOcc (combinations2 l) (x, y) =
      if x ∈ l ∧ y ∈ l ∧ pyLt x y = true then 1 else 0 := by
  intro l
  induction l with
  | nil =>
    intro _ x y
    simp [combinations2, countOcc]
  | cons a t ih =>
    intro hp x y
    have hpt : t.Pairwise (fun u v => pyLt u v = true) := List.Pairwise.of_cons hp
    have hat : ∀ u ∈ t, pyLt a u = true := (List.pairwise_cons.mp hp).1
    have hant : a ∉ t := by
      intro hmem
      have h1 := (pyLt_iff a a).mp (hat a hmem)
      exact h1.2 rfl
    have hndt : t.Nodup :=
      List.Pairwise.imp (fun h => ((pyLt_iff _ _).mp h).2) hpt
    simp only [combinations2, countOcc_append, count_map_pair]
    by_cases hx : x = a
    · subst hx
      have hz : countOcc (combinations2 t) (x, y) = 0 := by
        rw [ih hpt]
        simp [hant]
      rw [hz, if_pos rfl]
      by_cases hy : y ∈ t
      · have h1 : countOcc t y = 1 := countOcc_eq_one_of_mem hndt hy
        have hcond : x ∈ x :: t ∧ y ∈ x :: t ∧ pyLt x y = true :=
          ⟨by simp, by simp [hy], hat y hy⟩
        simp [h1, hcond]
      · have h0 : countOcc t y = 0 := countOcc_eq_zero_of_not_mem hy
        have hcond : ¬ ((y = x ∨ y ∈ t) ∧ pyLt x y = true) := by
          rintro ⟨hy1, hlt⟩
          rcases hy1 with h | h
          · exact ((pyLt_iff x y).mp hlt).2 h.symm
          · exact hy h
        simp [h0, hcond]
    · rw [if_neg hx, ih hpt]
      have hcond : (x ∈ a :: t ∧ y ∈ a :: t ∧ pyLt x y = true) ↔
          (x ∈ t ∧ y ∈ t ∧ pyLt x y = true) := by
        constructor
        · rintro ⟨hx1, hy1, hlt⟩
          have hx2 : x ∈ t := by
            rcases List.mem_cons.mp hx1 with h | h
            · exact absurd h hx
            · exact h
          have hy2 : y ∈ t := by
            rcases List.mem_cons.mp hy1 with h | h
            · exfalso
              subst h
              have h1 := (pyLt_iff x y).mp hlt
              have h2 := (pyLt_iff y x).mp (hat x hx2)
              exact h1.2 (pyLe_antisymm h1.1 h2.1)
            · exact h
          exact ⟨hx2, hy2, hlt⟩
        · rintro ⟨hx1, hy1, hlt⟩
          exact ⟨List.mem_cons_of_mem a hx1, List.mem_cons_of_mem a hy1, hlt⟩
      simp only [hcond]
      omega

/-- Every pair generated from a record has its components in canonical
(`pyLe`) order. -/
theorem tagPairs_fst_le (tags : List String) :
    ∀ p ∈ tagPairs tags, pyLe p.1 p.2 = true :=
  pairwise_combinations2 _ (pySorted tags) (pySorted_pairwise tags)

/-- On a duplicate-free record, every generated pair is strictly
increasing. -/
theorem tagPairs_lt (tags : List String) (h : tags.Nodup) :
    ∀ p ∈ tagPairs tags, pyLt p.1 p.2 = true :=
  pairwise_combinations2 _ (pySorted tags) (pySorted_pairwise_lt tags h)

/-- A record with at least two tags generates at least one pair. -/
theorem tagPairs_ne_nil (tags : List String) (h : 2 ≤ tags.length) :
    tagPairs tags ≠ [] := by
  apply combinations2_ne_nil
  rwa [(pySorted_perm tags).length_eq]

/-- On a duplicate-free record, each unordered pair of distinct member tags
is generated exactly once, and nothing else is generated. -/
theorem tagPairs_count (tags : List String) (h : tags.Nodup) (x y : String) :
    countOcc (tagPairs tags) (x, y) =
      if x ∈ tags ∧ y ∈ tags ∧ pyLt x y = true then 1 else 0 := by
  unfold tagPairs
  rw [count_combinations2 (pySorted tags) (pySorted_pairwise_lt tags h)]
  simp [ (pySorted_perm tags).mem_iff ]

/-
build_graph lemmas.
-/

/-- Node occurrence counts accumulated by the `build_graph` loop: one per tag
occurrence, restricted to records with at least two tags. -/
theorem foldl_buildStep_nodes (items : List Item) :
    ∀ (g : Graph) (t : String),
    getCount ((items.foldl buildStep g).nodes) t =
      getCount g.nodes t +
      ((items.filter (fun it => decide (2 ≤ it.tags.length))).map
        (fun it => countOcc it.tags t)).sum := by
  induction items with
  | nil =>
    intro g t
    simp
  | cons it rest ih =>
    intro g t
    by_cases h : it.tags.length < 2
    · have h2 : ¬ (2 ≤ it.tags.length) := by omega
      simp [buildStep, h, h2, ih]
    · have h2 : 2 ≤ it.tags.length := by omega
      simp only [List.foldl_cons, List.filter_cons, decide_eq_true_eq, h2, if_true,
        List.map_cons, List.sum_cons]
      rw [ih]
      have hstep : (buildStep g it).nodes = it.tags.foldl bump g.nodes := by
        simp [buildStep, h]
      rw [hstep, getCount_foldl_bump]
      omega

/-- Edge weights accumulated by the `build_graph` loop: the total number of
generated pairs equal to the key, over records with at least two tags. -/
theorem foldl_buildStep_edges (items : List Item) :
    ∀ (g : Graph) (p : String × String),
    getCount ((items.foldl buildStep g).edges) p =
      getCount g.edges p +
      ((items.filter (fun it => decide (2 ≤ it.tags.length))).map
        (fun it => countOcc (tagPairs it.tags) p)).sum := by
  induction items with
  | nil =>
    intro g p
    simp
  | cons it rest ih =>
    intro g p
    by_cases h : it.tags.length < 2
    · have h2 : ¬ (2 ≤ it.tags.length) := by omega
      simp [buildStep, h, h2, ih]
    · have h2 : 2 ≤ it.tags.length := by omega
      simp only [List.foldl_cons, List.filter_cons, decide_eq_true_eq, h2, if_true,
        List.map_cons, List.sum_cons]
      rw [ih]
      have hstep : (buildStep g it).edges = (tagPairs it.tags).foldl bump g.edges := by
        simp [buildStep, h]
      rw [hstep, getCount_foldl_bump]
      omega

/-- Closed form of the node weights of `build_graph`. -/
theorem build_graph_nodes_count (items : List Item) (t : String) :
    getCount (build_graph items).nodes t =
      ((items.filter (fun it => decide (2 ≤ it.tags.length))).map
        (fun it => countOcc it.tags t)).sum := by
  unfold build_graph
  rw [foldl_buildStep_nodes]
  simp [getCount]

/-- Closed form of the edge weights of `build_graph`. -/
theorem build_graph_edges_count (items : List Item) (p : String × String) :
    getCount (build_graph items).edges p =
      ((items.filter (fun it => decide (2 ≤ it.tags.length))).map
        (fun it => countOcc (tagPairs it.tags) p)).sum := by
  unfold build_graph
  rw [foldl_buildStep_edges]
  simp [getCount]

/-- All node weights of `build_graph` are positive. -/
theorem build_graph_nodes_pos (items : List Item) :
    ∀ p ∈ (build_graph items).nodes, 0 < p.2 := by
  unfold build_graph
  generalize hg : ({ nodes := [], edges := [] } : Graph) = g
  have hbase : ∀ p ∈ g.nodes, 0 < p.2 := by
    rw [← hg]
    intro p hp
    simp at hp
  clear hg
  induction items generalizing g with
  | nil => exact hbase
  | cons it rest ih =>
    simp only [List.foldl_cons]
    apply ih
    by_cases h : it.tags.length < 2
    · simpa [buildStep, h] using hbase
    · have : (buildStep g it).nodes = it.tags.foldl bump g.nodes := by
        simp [buildStep, h]
      rw [this]
      exact foldl_bump_pos _ _ hbase

/-- All edge weights of `build_graph` are positive. -/
theorem build_graph_edges_pos (items : List Item) :
    ∀ p ∈ (build_graph items).edges, 0 < p.2 := by
  unfold build_graph
  generalize hg : ({ nodes := [], edges := [] } : Graph) = g
  have hbase : ∀ p ∈ g.edges, 0 < p.2 := by
    rw [← hg]
    intro p hp
    simp at hp
  clear hg
  induction items generalizing g with
  | nil => exact hbase
  | cons it rest ih =>
    simp only [List.foldl_cons]
    apply ih
    by_cases h : it.tags.length < 2
    · simpa [buildStep, h] using hbase
    · have : (buildStep g it).edges = (tagPairs it.tags).foldl bump g.edges := by
        simp [buildStep, h]
      rw [this]
      exact foldl_bump_pos _ _ hbase

/-- The edge keys of `build_graph` are duplicate-free: no parallel edges. -/
theorem build_graph_edges_keys_nodup (items : List Item) :
    ((build_graph items).edges.map Prod.fst).Nodup := by
  unfold build_graph
  generalize hg : ({ nodes := [], edges := [] } : Graph) = g
  have hbase : (g.edges.map Prod.fst).Nodup := by
    rw [← hg]
    simp
  clear hg
  induction items generalizing g with
  | nil => exact hbase
  | cons it rest ih =>
    simp only [List.foldl_cons]
    apply ih
    by_cases h : it.tags.length < 2
    · simpa [buildStep, h] using hbase
    · have : (buildStep g it).edges = (tagPairs it.tags).foldl bump g.edges := by
        simp [buildStep, h]
      rw [this]
      exact nodup_keys_foldl_bump _ _ hbase

/-- Every edge key of `build_graph` is in canonical (`pyLe`) order. -/
theorem build_graph_edges_fst_le (items : List Item) :
    ∀ p ∈ (build_graph items).edges, pyLe p.1.1 p.1.2 = true := by
  unfold build_graph
  generalize hg : ({ nodes := [], edges := [] } : Graph) = g
  have hbase : ∀ p ∈ g.edges, pyLe p.1.1 p.1.2 = true := by
    rw [← hg]
    intro p hp
    simp at hp
  clear hg
  induction items generalizing g with
  | nil => exact hbase
  | cons it rest ih =>
    simp only [List.foldl_cons]
    apply ih
    by_cases h : it.tags.length < 2
    · simpa [buildStep, h] using hbase
    · have heq : (buildStep g it).edges = (tagPairs it.tags).foldl bump g.edges := by
        simp [buildStep, h]
      rw [heq]
      exact keys_prop_foldl_bump (fun pr : String × String => pyLe pr.1 pr.2 = true) _ _ hbase
        (tagPairs_fst_le it.tags)

/-- Positivity of a sum of mapped naturals is witnessed by a member. -/
theorem sum_map_pos_iff {α : Type} (l : List α) (f : α → Nat) :
    0 < (l.map f).sum ↔ ∃ x ∈ l, 0 < f x := by
  induction l with
  | nil => simp
  | cons a t ih =>
    simp only [List.map_cons, List.sum_cons, List.mem_cons]
    constructor
    · intro h
      by_cases hfa : 0 < f a
      · exact ⟨a, Or.inl rfl, hfa⟩
      · have hs : 0 < (t.map f).sum := by omega
        obtain ⟨x, hx, hfx⟩ := ih.mp hs
        exact ⟨x, Or.inr hx, hfx⟩
    · rintro ⟨x, hx | hx, hfx⟩
      · subst hx
        omega
      · have := ih.mpr ⟨x, hx, hfx⟩
        omega

/-- C1 counterexample: the code does not de-duplicate tags within a record.
The record `["a","a","b"]` increments the weight of the pair `(a,b)` twice
(the claim requires exactly once), both in `build_graph` and in the edge
counting used by `find_rising_edges` (visible in its fallback output, where
`total_count` for `(a,b)` is 2 and a self-pair `(a,a)` appears). -/
theorem claim_C1_counterexample :
    getCount (build_graph [⟨["a", "a", "b"], none⟩]).edges ("a", "b") = 2 ∧
    (find_rising_edges [⟨["a", "a", "b"], some 0⟩] 7 30 10).1 =
      [⟨"a", "b", ⟨0, 0⟩, Details.fallback 2 "insufficient_window_samples"⟩,
       ⟨"a", "a", ⟨0, 0⟩, Details.fallback 1 "insufficient_window_samples"⟩] := by
  constructor
  · decide
  · decide

/-- C1 (amended): pairing does not de-duplicate: each record contributes to
the weight of a pair exactly the number of times the pair occurs in
`combinations(sorted(tags), 2)`; when a record's tag list is duplicate-free
this is exactly once for each unordered pair of distinct member tags and
zero otherwise, and the same per-record pairing (`tagPairs`) is the one used
by `find_rising_edges` and `_fallback_top_edges`. -/
theorem claim_C1 (items : List Item) (x y : String) :
    (getCount (build_graph items).edges (x, y) =
      ((items.filter (fun it => decide (2 ≤ it.tags.length))).map
        (fun it => countOcc (tagPairs it.tags) (x, y))).sum) ∧
    (∀ tags : List String, tags.Nodup →
      countOcc (tagPairs tags) (x, y) =
        if x ∈ tags ∧ y ∈ tags ∧ pyLt x y = true then 1 else 0) :=
  ⟨build_graph_edges_count items (x, y), fun tags h => tagPairs_count tags h x y⟩

/-- C1 witness: concrete instance of the amended claim at a duplicate-free
record. -/
theorem claim_C1_witness :
    countOcc (tagPairs ["b", "a", "c"]) ("a", "b") =
      if "a" ∈ ["b", "a", "c"] ∧ "b" ∈ ["b", "a", "c"] ∧ pyLt "a" "b" = true
      then 1 else 0 :=
  (claim_C1 [] "a" "b").2 ["b", "a", "c"] (by decide)

/-- C2 counterexample: a record with a single tag is skipped entirely by
`build_graph` (the `continue` fires before node counting), so its tag does
not become a node, contradicting the claim that every tag appearing in some
record is a node with its occurrence count. -/
theorem claim_C2_counterexample :
    (build_graph [⟨["a"], none⟩]).nodes = [] ∧
    ¬ ("a" ∈ (build_graph [⟨["a"], none⟩]).nodes.map Prod.fst) := by
  constructor
  · rfl
  · decide

/-- C2 (amended): the node set of `build_graph` is the union of tags of the
records having at least two tag entries only, and a node's weight is the
total number of occurrences of the tag in those records (a duplicated tag in
one record counts once per occurrence, not once per record); records with
fewer than two tags contribute neither nodes nor counts. -/
theorem claim_C2 (items : List Item) (t : String) :
    getCount (build_graph items).nodes t =
      ((items.filter (fun it => decide (2 ≤ it.tags.length))).map
        (fun it => countOcc it.tags t)).sum ∧
    (t ∈ (build_graph items).nodes.map Prod.fst ↔
      ∃ it ∈ items, 2 ≤ it.tags.length ∧ t ∈ it.tags) := by
  refine ⟨build_graph_nodes_count items t, ?_⟩
  rw [mem_keys_iff_getCount_pos _ (build_graph_nodes_pos items) t]
  rw [build_graph_nodes_count items t, sum_map_pos_iff]
  constructor
  · rintro ⟨it, hit, hc⟩
    have h2 := List.mem_filter.mp hit
    exact ⟨it, h2.1, by simpa using h2.2, (countOcc_pos_iff_mem _ _).mp hc⟩
  · rintro ⟨it, hit, h2, htag⟩
    exact ⟨it, List.mem_filter.mpr ⟨hit, by simpa using h2⟩,
      (countOcc_pos_iff_mem _ _).mpr htag⟩

/-- C9 counterexample: a duplicated tag inside one record produces a
self-loop: the record `["a","a","b"]` yields the edge `(a,a)` with weight 1,
so the graph is not simple on such inputs. -/
theorem claim_C9_counterexample :
    getCount (build_graph [⟨["a", "a", "b"], none⟩]).edges ("a", "a") = 1 := by
  decide

/-- C9 (amended): the graph has no parallel edges (edge keys are
duplicate-free and in canonical sorted order, so an unordered pair is never
recorded twice, also not under swapped order), every edge weight is
positive, and the graph is self-loop-free provided every record's tag list
is duplicate-free; a duplicated tag can produce a self-loop. -/
theorem claim_C9 (items : List Item) :
    ((build_graph items).edges.map Prod.fst).Nodup ∧
    (∀ p ∈ (build_graph items).edges, pyLe p.1.1 p.1.2 = true ∧ 0 < p.2) ∧
    ((∀ it ∈ items, it.tags.Nodup) →
      ∀ t : String, getCount (build_graph items).edges (t, t) = 0) := by
  refine ⟨build_graph_edges_keys_nodup items, ?_, ?_⟩
  · intro p hp
    exact ⟨build_graph_edges_fst_le items p hp, build_graph_edges_pos items p hp⟩
  · intro hnd t
    rw [build_graph_edges_count]
    apply List.sum_eq_zero
    intro x hx
    obtain ⟨it, hit, rfl⟩ := List.mem_map.mp hx
    have hit2 := List.mem_filter.mp hit
    rw [tagPairs_count it.tags (hnd it hit2.1) t t]
    have hcon : ¬ (t ∈ it.tags ∧ t ∈ it.tags ∧ pyLt t t = true) := by
      rintro ⟨-, -, hlt⟩
      exact ((pyLt_iff t t).mp hlt).2 rfl
    simp [hcon]

/-- C9 witness: concrete instance of the amended claim on duplicate-free
records. -/
theorem claim_C9_witness :
    getCount (build_graph [⟨["a", "b"], none⟩]).edges ("a", "a") = 0 :=
  (claim_C9 [⟨["a", "b"], none⟩]).2.2 (by decide) "a"

/-
Growth and sorting lemmas.
-/

/-- Growth denominators are positive. -/
theorem Growth.den_pos (g : Growth) : 0 < g.den := by
  unfold Growth.den
  positivity

/-- Comparison of growth values as rationals is cross-multiplication. -/
theorem Growth.toRat_le_iff (a b : Growth) :
    a.toRat ≤ b.toRat ↔ a.num * b.den ≤ b.num * a.den := by
  unfold Growth.toRat
  rw [div_le_div_iff₀ (by exact_mod_cast a.den_pos) (by exact_mod_cast b.den_pos)]
  exact_mod_cast Iff.rfl

/-- A growth value is positive iff its numerator is. -/
theorem Growth.toRat_pos_iff (g : Growth) : 0 < g.toRat ↔ 0 < g.num := by
  unfold Growth.toRat
  rw [div_pos_iff_of_pos_right (by exact_mod_cast g.den_pos)]
  exact_mod_cast Iff.rfl

/-- The rational value of `growthOf` is the spec formula
`(recent - historical) / (historical + 1)`. -/
theorem growthOf_toRat (rw hw : Nat) :
    (growthOf rw hw).toRat = ((rw : Rat) - (hw : Rat)) / ((hw : Rat) + 1) := by
  unfold growthOf Growth.toRat Growth.den
  push_cast
  ring_nf

instance : IsTotal EdgeOut descScore :=
  ⟨fun a b => Int.le_total (b.score.num * a.score.den) (a.score.num * b.score.den)⟩

instance : IsTrans EdgeOut descScore := by
  constructor
  intro a b c hab hbc
  unfold descScore at hab hbc ⊢
  have hda := a.score.den_pos
  have hdb := b.score.den_pos
  have hdc := c.score.den_pos
  nlinarith [mul_le_mul_of_nonneg_right hab (le_of_lt hdc),
    mul_le_mul_of_nonneg_right hbc (le_of_lt hda)]

instance {α : Type} : IsTotal (α × Nat) (fun a b => b.2 ≤ a.2) :=
  ⟨fun a b => Nat.le_total b.2 a.2⟩

instance {α : Type} : IsTrans (α × Nat) (fun a b => b.2 ≤ a.2) :=
  ⟨fun _ _ _ hab hbc => le_trans hbc hab⟩

/-- `most_common` output is sorted by count descending. -/
theorem mostCommon_pairwise {α : Type} (c : List (α × Nat)) (n : Nat) :
    (mostCommon c n).Pairwise (fun a b => b.2 ≤ a.2) := by
  unfold mostCommon
  exact (List.sorted_insertionSort _ c).sublist (List.take_sublist _ _)

/-- `most_common(n)` of a non-empty counter is non-empty when `n ≥ 1`. -/
theorem mostCommon_ne_nil {α : Type} (c : List (α × Nat)) (n : Nat)
    (hc : c ≠ []) (hn : 1 ≤ n) : mostCommon c n ≠ [] := by
  unfold mostCommon
  have hlen : (List.insertionSort (fun a b => b.2 ≤ a.2) c).length = c.length :=
    (List.perm_insertionSort _ c).length_eq
  have hpos : 0 < c.length := List.length_pos.mpr hc
  intro hnil
  have := congrArg List.length hnil
  simp only [List.length_take, hlen, List.length_nil] at this
  omega

/-- `sortRising` output is sorted. -/
theorem sortRising_pairwise (l : List EdgeOut) :
    (sortRising l).Pairwise descScore :=
  List.sorted_insertionSort _ l

/-- `sortRising` is a permutation. -/
theorem sortRising_perm (l : List EdgeOut) : (sortRising l).Perm l :=
  List.perm_insertionSort _ l

/-
Path lemmas for find_rising_edges.
-/

/-- Unfolding of `find_rising_edges` into its four code paths. -/
theorem find_rising_edges_eq (items : List Item) (rd hd : Int) (n : Nat) :
    find_rising_edges items rd hd n =
      if (itemsWithTime items).isEmpty then fallback_top_edges items n none none
      else if (winState items rd hd).recent_count < 5 ∨
          (winState items rd hd).historical_count < 5 then
        fallback_top_edges items n (some (winState items rd hd).all_edges)
          (some { computedStats items rd hd with mode := "fallback" })
      else if (sortRising (risingListOf (winState items rd hd))).isEmpty then
        fallback_top_edges items n (some (winState items rd hd).all_edges)
          (some { computedStats items rd hd with mode := "fallback" })
      else ((sortRising (risingListOf (winState items rd hd))).take n,
        computedStats items rd hd) := rfl

/-- A predicate preserved by a fold step holds at the end. -/
theorem foldl_pres {α β : Type} (f : β → α → β) (P : β → Prop)
    (hpres : ∀ b a, P b → P (f b a)) :
    ∀ (l : List α) (b : β), P b → P (l.foldl f b) := by
  intro l
  induction l with
  | nil => intro b hb; exact hb
  | cons x xs ih =>
    intro b hb
    exact ih (f b x) (hpres b x hb)

/-- A predicate established by some processed element and preserved by every
step holds after the fold. -/
theorem foldl_reach {α β : Type} (f : β → α → β) (P : β → Prop)
    (hpres : ∀ b a, P b → P (f b a)) {x : α}
    (hstep : ∀ b, P (f b x)) :
    ∀ l : List α, x ∈ l → ∀ b : β, P (l.foldl f b) := by
  intro l
  induction l with
  | nil =>
    intro hx
    simp at hx
  | cons y ys ih =>
    intro hx b
    rcases List.mem_cons.mp hx with h | h
    · subst h
      exact foldl_pres f P hpres ys (f b x) (hstep b)
    · exact ih h (f b y)

/-- Lengths of filters are monotone in the predicate. -/
theorem filter_length_mono {α : Type} (l : List α) (p q : α → Bool)
    (h : ∀ a ∈ l, p a = true → q a = true) :
    (l.filter p).length ≤ (l.filter q).length := by
  induction l with
  | nil => simp
  | cons x xs ih =>
    have ih2 := ih (fun a ha hpa => h a (List.mem_cons_of_mem x ha) hpa)
    by_cases hp : p x = true
    · have hq := h x (List.mem_cons_self x xs) hp
      simp only [List.filter_cons, hp, hq, if_true, List.length_cons]
      omega
    · have hp2 : p x = false := by simpa using hp
      by_cases hq : q x = true
      · simp only [List.filter_cons, hp2, hq, Bool.false_eq_true, if_false, if_true,
          List.length_cons]
        omega
      · have hq2 : q x = false := by simpa using hq
        simp only [List.filter_cons, hp2, hq2, Bool.false_eq_true, if_false]
        omega

/-- Membership in `dedupFirstAux`. -/
theorem mem_dedupFirstAux {α : Type} [DecidableEq α] (l : List α) :
    ∀ (seen : List α) (x : α),
    x ∈ dedupFirstAux seen l ↔ (x ∈ l ∧ x ∉ seen) := by
  induction l with
  | nil =>
    intro seen x
    simp [dedupFirstAux]
  | cons y ys ih =>
    intro seen x
    by_cases hy : y ∈ seen
    · rw [show dedupFirstAux seen (y :: ys) = dedupFirstAux seen ys by
        simp [dedupFirstAux, hy]]
      rw [ih seen x]
      constructor
      · rintro ⟨h1, h2⟩
        exact ⟨List.mem_cons_of_mem y h1, h2⟩
      · rintro ⟨h1, h2⟩
        rcases List.mem_cons.mp h1 with h | h
        · subst h
          exact absurd hy h2
        · exact ⟨h, h2⟩
    · rw [show dedupFirstAux seen (y :: ys) = y :: dedupFirstAux (y :: seen) ys by
        simp [dedupFirstAux, hy]]
      constructor
      · intro hmem
        rcases List.mem_cons.mp hmem with h | h
        · subst h
          exact ⟨by simp, hy⟩
        · have h2 := (ih (y :: seen) x).mp h
          exact ⟨List.mem_cons_of_mem y h2.1,
            fun hs => h2.2 (List.mem_cons_of_mem y hs)⟩
      · rintro ⟨h1, h2⟩
        by_cases hxy : x = y
        · subst hxy
          simp
        · rcases List.mem_cons.mp h1 with h | h
          · exact absurd h hxy
          · refine List.mem_cons_of_mem y ((ih (y :: seen) x).mpr ⟨h, ?_⟩)
            intro hs
            rcases List.mem_cons.mp hs with hh | hh
            · exact hxy hh
            · exact h2 hh

/-- Membership in `dedupFirst`. -/
theorem mem_dedupFirst {α : Type} [DecidableEq α] (l : List α) (x : α) :
    x ∈ dedupFirst l ↔ x ∈ l := by
  unfold dedupFirst
  rw [mem_dedupFirstAux]
  simp

/-
Window loop lemmas.
-/

/-- The `recent` sample count accumulated by the window loop: records with at
least two tags classified recent. -/
theorem foldl_winStep_recent_count (a rd hd : Int) :
    ∀ (l : List (Item × Int)) (st : WinState),
    (l.foldl (winStep a rd hd) st).recent_count =
      st.recent_count + (l.filter (fun p => decide (2 ≤ p.1.tags.length) &&
        decide (classifyWindow p.2 a rd hd = Window.recent))).length := by
  intro l
  induction l with
  | nil =>
    intro st
    simp
  | cons p ps ih =>
    intro st
    by_cases h : p.1.tags.length < 2
    · have h2 : ¬ 2 ≤ p.1.tags.length := by omega
      simp [winStep, h, h2, ih]
    · have h2 : 2 ≤ p.1.tags.length := by omega
      rcases hcw : classifyWindow p.2 a rd hd with _ | _ | _ <;>
        simp [winStep, h, h2, hcw, ih] <;> omega

/-- The `historical` sample count accumulated by the window loop. -/
theorem foldl_winStep_historical_count (a rd hd : Int) :
    ∀ (l : List (Item × Int)) (st : WinState),
    (l.foldl (winStep a rd hd) st).historical_count =
      st.historical_count + (l.filter (fun p => decide (2 ≤ p.1.tags.length) &&
        decide (classifyWindow p.2 a rd hd = Window.historical))).length := by
  intro l
  induction l with
  | nil =>
    intro st
    simp
  | cons p ps ih =>
    intro st
    by_cases h : p.1.tags.length < 2
    · have h2 : ¬ 2 ≤ p.1.tags.length := by omega
      simp [winStep, h, h2, ih]
    · have h2 : 2 ≤ p.1.tags.length := by omega
      rcases hcw : classifyWindow p.2 a rd hd with _ | _ | _ <;>
        simp [winStep, h, h2, hcw, ih] <;> omega

/-- Number of parseable records classified into window `w` (no tag filter):
the partition of §4.3 step 3. -/
def windowPartitionCount (items : List Item) (rd hd : Int) (w : Window) : Nat :=
  ((itemsWithTime items).filter (fun p =>
    decide (classifyWindow p.2 (anchorNow (itemsWithTime items)) rd hd = w))).length

/-- The loop's recent sample count never exceeds the number of parseable
records classified recent. -/
theorem winState_recent_le_partition (items : List Item) (rd hd : Int) :
    (winState items rd hd).recent_count ≤
      windowPartitionCount items rd hd Window.recent := by
  unfold winState windowPartitionCount
  rw [foldl_winStep_recent_count]
  simp only [Nat.zero_add]
  apply filter_length_mono
  intro p _ hp
  simp only [Bool.and_eq_true, decide_eq_true_eq] at hp
  simp [hp.2]

/-- The loop's historical sample count never exceeds the number of parseable
records classified historical. -/
theorem winState_historical_le_partition (items : List Item) (rd hd : Int) :
    (winState items rd hd).historical_count ≤
      windowPartitionCount items rd hd Window.historical := by
  unfold winState windowPartitionCount
  rw [foldl_winStep_historical_count]
  simp only [Nat.zero_add]
  apply filter_length_mono
  intro p _ hp
  simp only [Bool.and_eq_true, decide_eq_true_eq] at hp
  simp [hp.2]

/-- A window step never empties the global edge counter. -/
theorem winStep_all_edges_pres (a rd hd : Int) (st : WinState) (p : Item × Int)
    (h : st.all_edges ≠ []) : (winStep a rd hd st p).all_edges ≠ [] := by
  unfold winStep
  by_cases hl : p.1.tags.length < 2
  · simpa [hl]
  · rcases hcw : classifyWindow p.2 a rd hd with _ | _ | _ <;>
      simp [hl, hcw] <;>
      exact foldl_bump_ne_nil_of_ne_nil _ _ h

/-- Processing a record with at least two tags makes the global edge counter
non-empty. -/
theorem winStep_all_edges_of_pair (a rd hd : Int) (p : Item × Int)
    (h2 : 2 ≤ p.1.tags.length) :
    ∀ st : WinState, (winStep a rd hd st p).all_edges ≠ [] := by
  intro st
  unfold winStep
  have hl : ¬ p.1.tags.length < 2 := by omega
  have hpairs : tagPairs p.1.tags ≠ [] := tagPairs_ne_nil _ h2
  rcases hcw : classifyWindow p.2 a rd hd with _ | _ | _ <;>
    simp [hl, hcw] <;>
    exact foldl_bump_ne_nil_of_list_ne_nil _ _ hpairs

/-- If some parseable record has at least two tags, the loop's global edge
counter is non-empty. -/
theorem winState_all_edges_ne_nil (items : List Item) (rd hd : Int)
    (h : ∃ p ∈ itemsWithTime items, 2 ≤ p.1.tags.length) :
    (winState items rd hd).all_edges ≠ [] := by
  obtain ⟨p, hp, h2⟩ := h
  unfold winState
  exact foldl_reach _ (fun st : WinState => st.all_edges ≠ [])
    (winStep_all_edges_pres _ _ _)
    (winStep_all_edges_of_pair _ _ _ p h2) (itemsWithTime items) hp _

/-- The no-timestamp path: global fallback recomputed over all records. -/
theorem find_rising_edges_notime (items : List Item) (rd hd : Int) (n : Nat)
    (hempty : itemsWithTime items = []) :
    find_rising_edges items rd hd n = fallback_top_edges items n none none := by
  rw [find_rising_edges_eq, if_pos (by simp [hempty])]

/-- The insufficient-samples path: either window below 5 triggers the
fallback with the precomputed stats, mode switched to `"fallback"`. -/
theorem find_rising_edges_guard (items : List Item) (rd hd : Int) (n : Nat)
    (hne : itemsWithTime items ≠ [])
    (hguard : (winState items rd hd).recent_count < 5 ∨
      (winState items rd hd).historical_count < 5) :
    find_rising_edges items rd hd n =
      fallback_top_edges items n (some (winState items rd hd).all_edges)
        (some { computedStats items rd hd with mode := "fallback" }) := by
  rw [find_rising_edges_eq, if_neg (by simpa using hne), if_pos hguard]

/-- The no-rising-edges path: both windows are large enough but no edge
qualifies, so the same fallback fires. -/
theorem find_rising_edges_norising (items : List Item) (rd hd : Int) (n : Nat)
    (hne : itemsWithTime items ≠ [])
    (hguard : ¬ ((winState items rd hd).recent_count < 5 ∨
      (winState items rd hd).historical_count < 5))
    (hempty : risingListOf (winState items rd hd) = []) :
    find_rising_edges items rd hd n =
      fallback_top_edges items n (some (winState items rd hd).all_edges)
        (some { computedStats items rd hd with mode := "fallback" }) := by
  rw [find_rising_edges_eq, if_neg (by simpa using hne), if_neg hguard,
    if_pos (by simp [sortRising, hempty])]

/-- The rising path: output is the sorted qualifying edges truncated to
`top_n`, with the stats in mode `"rising"`. -/
theorem find_rising_edges_rising (items : List Item) (rd hd : Int) (n : Nat)
    (hne : itemsWithTime items ≠ [])
    (hguard : ¬ ((winState items rd hd).recent_count < 5 ∨
      (winState items rd hd).historical_count < 5))
    (hrising : risingListOf (winState items rd hd) ≠ []) :
    find_rising_edges items rd hd n =
      ((sortRising (risingListOf (winState items rd hd))).take n,
        computedStats items rd hd) := by
  have hsne : sortRising (risingListOf (winState items rd hd)) ≠ [] := by
    intro hc
    exact hrising ((hc ▸ sortRising_perm (risingListOf (winState items rd hd))).symm.eq_nil)
  rw [find_rising_edges_eq, if_neg (by simpa using hne), if_neg hguard,
    if_neg (by simpa using hsne)]

/-- Membership in the unsorted qualifying-edge list. -/
theorem mem_risingListOf (st : WinState) (e : EdgeOut) :
    e ∈ risingListOf st ↔ ∃ pr ∈ risingCandidates st,
      0 < (growthOf (getCount st.recent_edges pr) (getCount st.historical_edges pr)).num ∧
      2 ≤ getCount st.recent_edges pr ∧
      e = ⟨pr.1, pr.2,
        growthOf (getCount st.recent_edges pr) (getCount st.historical_edges pr),
        Details.rising (getCount st.recent_edges pr) (getCount st.historical_edges pr)
          (growthOf (getCount st.recent_edges pr) (getCount st.historical_edges pr))⟩ := by
  unfold risingListOf
  rw [List.mem_filterMap]
  constructor
  · rintro ⟨pr, hpr, heq⟩
    simp only at heq
    split at heq
    · rename_i hc
      exact ⟨pr, hpr, hc.1, hc.2, (Option.some.inj heq).symm⟩
    · exact absurd heq (by simp)
  · rintro ⟨pr, hpr, h1, h2, rfl⟩
    refine ⟨pr, hpr, ?_⟩
    simp only
    rw [if_pos ⟨h1, h2⟩]

/-- C8: the window partition of `find_rising_edges` (for the usual
non-negative day parameters): a timestamp exactly at
`anchor_now - recent_days` is classified recent (boundary inclusive to
recent); every timestamp is classified into exactly one of
recent / historical / neither, characterized by the two thresholds; and the
loop counts a boundary record (with at least two tags) as a recent sample. -/
theorem claim_C8 (anchor rd hd t : Int) (hrd : 0 ≤ rd) (hhd : 0 ≤ hd) :
    classifyWindow (anchor - rd * daySecs) anchor rd hd = Window.recent ∧
    (classifyWindow t anchor rd hd = Window.recent ↔ anchor - rd * daySecs ≤ t) ∧
    (classifyWindow t anchor rd hd = Window.historical ↔
      t < anchor - rd * daySecs ∧ anchor - (rd + hd) * daySecs ≤ t) ∧
    (classifyWindow t anchor rd hd = Window.neither ↔
      t < anchor - (rd + hd) * daySecs) ∧
    (∀ (st : WinState) (item : Item), 2 ≤ item.tags.length →
      (winStep anchor rd hd st (item, anchor - rd * daySecs)).recent_count =
        st.recent_count + 1) := by
  have hthr : anchor - (rd + hd) * daySecs ≤ anchor - rd * daySecs := by
    simp only [daySecs]
    nlinarith
  refine ⟨?_, ?_, ?_, ?_, ?_⟩
  · unfold classifyWindow
    rw [if_pos le_rfl]
  · unfold classifyWindow
    split_ifs with h1 h2
    · simpa using h1
    · simp only [show Window.historical = Window.recent ↔ False by simp, false_iff]
      omega
    · simp only [show Window.neither = Window.recent ↔ False by simp, false_iff]
      omega
  · unfold classifyWindow
    split_ifs with h1 h2
    · simp only [show Window.recent = Window.historical ↔ False by simp, false_iff]
      omega
    · simp only [show (Window.historical = Window.historical) ↔ True by simp, true_iff]
      omega
    · simp only [show Window.neither = Window.historical ↔ False by simp, false_iff]
      omega
  · unfold classifyWindow
    split_ifs with h1 h2
    · simp only [show Window.recent = Window.neither ↔ False by simp, false_iff]
      omega
    · simp only [show Window.historical = Window.neither ↔ False by simp, false_iff]
      omega
    · simp only [show (Window.neither = Window.neither) ↔ True by simp, true_iff]
      omega
  · intro st item h2
    have hl : ¬ item.tags.length < 2 := by omega
    have hcw : classifyWindow (anchor - rd * daySecs) anchor rd hd = Window.recent := by
      unfold classifyWindow
      rw [if_pos le_rfl]
    simp [winStep, hl, hcw]

/-- C8 witness: boundary classification at concrete parameters. -/
theorem claim_C8_witness :
    classifyWindow (0 - 7 * daySecs) 0 7 30 = Window.recent :=
  (claim_C8 0 7 30 0 (by decide) (by decide)).1

/-- C10: on both post-window fallback paths (insufficient samples, or no
qualifying rising edge), the returned `window_stats` is exactly the
precomputed stats dict with only its `mode` field switched to
`"fallback"`: `anchor_now`, `recent_count`, `historical_count`,
`total_count`, `recent_edges_count` and `historical_edges_count` are all
preserved. -/
theorem claim_C10 (items : List Item) (rd hd : Int) (n : Nat)
    (hne : itemsWithTime items ≠ [])
    (hfb : ((winState items rd hd).recent_count < 5 ∨
        (winState items rd hd).historical_count < 5) ∨
      (¬ ((winState items rd hd).recent_count < 5 ∨
        (winState items rd hd).historical_count < 5) ∧
       risingListOf (winState items rd hd) = [])) :
    (find_rising_edges items rd hd n).2 =
      { computedStats items rd hd with mode := "fallback" } ∧
    (find_rising_edges items rd hd n).2.anchor_now =
      (computedStats items rd hd).anchor_now ∧
    (find_rising_edges items rd hd n).2.recent_count =
      (computedStats items rd hd).recent_count ∧
    (find_rising_edges items rd hd n).2.historical_count =
      (computedStats items rd hd).historical_count ∧
    (find_rising_edges items rd hd n).2.total_count =
      (computedStats items rd hd).total_count ∧
    (find_rising_edges items rd hd n).2.recent_edges_count =
      (computedStats items rd hd).recent_edges_count ∧
    (find_rising_edges items rd hd n).2.historical_edges_count =
      (computedStats items rd hd).historical_edges_count ∧
    (find_rising_edges items rd hd n).2.mode = "fallback" := by
  have hmain : (find_rising_edges items rd hd n).2 =
      { computedStats items rd hd with mode := "fallback" } := by
    rcases hfb with h | ⟨hg, hr⟩
    · rw [find_rising_edges_guard items rd hd n hne h]
      rfl
    · rw [find_rising_edges_norising items rd hd n hne hg hr]
      rfl
  exact ⟨hmain, by rw [hmain], by rw [hmain], by rw [hmain], by rw [hmain],
    by rw [hmain], by rw [hmain], by rw [hmain]⟩

/-- C10 witness: concrete fallback run preserving the stats fields. -/
theorem claim_C10_witness :
    (find_rising_edges [⟨["a", "b"], some 0⟩] 7 30 10).2 =
      { computedStats [⟨["a", "b"], some 0⟩] 7 30 with mode := "fallback" } :=
  (claim_C10 [⟨["a", "b"], some 0⟩] 7 30 10 (by decide) (Or.inl (by decide))).1

/-- The `total_count` carried by a fallback entry (0 on rising entries). -/
def fallbackTotal (e : EdgeOut) : Nat :=
  match e.details with
  | Details.fallback c _ => c
  | Details.rising _ _ _ => 0

/-- C5: when the parseable records give a recent window with fewer than 5
records or a historical window with fewer than 5 records, the analyzer
returns the fallback: mode `"fallback"` (with the other stats fields
preserved), the edge list is the global top-`top_n` edges by co-occurrence
frequency (`most_common` of the global counter), in non-increasing count
order, and every entry carries score `0.0` and details
`{total_count, fallback_reason: "insufficient_window_samples"}`. -/
theorem claim_C5 (items : List Item) (rd hd : Int) (n : Nat)
    (hne : itemsWithTime items ≠ [])
    (hpart : windowPartitionCount items rd hd Window.recent < 5 ∨
      windowPartitionCount items rd hd Window.historical < 5) :
    (find_rising_edges items rd hd n).2 =
      { computedStats items rd hd with mode := "fallback" } ∧
    (find_rising_edges items rd hd n).2.mode = "fallback" ∧
    (find_rising_edges items rd hd n).1 =
      (mostCommon (winState items rd hd).all_edges n).map (fun p =>
        ⟨p.1.1, p.1.2, ⟨0, 0⟩, Details.fallback p.2 "insufficient_window_samples"⟩) ∧
    ((find_rising_edges items rd hd n).1).Pairwise
      (fun a b => fallbackTotal b ≤ fallbackTotal a) ∧
    (∀ e ∈ (find_rising_edges items rd hd n).1,
      e.score = ⟨0, 0⟩ ∧ e.score.toRat = 0 ∧
      ∃ c, e.details = Details.fallback c "insufficient_window_samples") := by
  have hg : (winState items rd hd).recent_count < 5 ∨
      (winState items rd hd).historical_count < 5 := by
    rcases hpart with h | h
    · exact Or.inl (lt_of_le_of_lt (winState_recent_le_partition items rd hd) h)
    · exact Or.inr (lt_of_le_of_lt (winState_historical_le_partition items rd hd) h)
  have heq := find_rising_edges_guard items rd hd n hne hg
  rw [heq]
  refine ⟨rfl, rfl, rfl, ?_, ?_⟩
  · show ((mostCommon (winState items rd hd).all_edges n).map _).Pairwise _
    apply List.Pairwise.map
    · intro a b hab
      exact hab
    · exact mostCommon_pairwise _ n
  · intro e he
    show _ ∧ _ ∧ _
    obtain ⟨p, hp, rfl⟩ := List.mem_map.mp he
    refine ⟨rfl, ?_, p.2, rfl⟩
    show Growth.toRat ⟨0, 0⟩ = 0
    unfold Growth.toRat Growth.den
    norm_num

/-- C5 witness: concrete insufficient-window run. -/
theorem claim_C5_witness :
    (find_rising_edges [⟨["a", "b"], some 0⟩] 7 30 10).1 =
      (mostCommon (winState [⟨["a", "b"], some 0⟩] 7 30).all_edges 10).map (fun p =>
        ⟨p.1.1, p.1.2, ⟨0, 0⟩, Details.fallback p.2 "insufficient_window_samples"⟩) :=
  (claim_C5 [⟨["a", "b"], some 0⟩] 7 30 10 (by decide) (Or.inl (by decide))).2.2.1

/-- Ten records, five in each window, all carrying the same tag pair, so no
edge has positive growth: a concrete no-rising-edges input with both windows
at the sample threshold. -/
def itemsC4 : List Item :=
  [⟨["a", "b"], some (37 * 86400)⟩, ⟨["a", "b"], some (37 * 86400)⟩,
   ⟨["a", "b"], some (37 * 86400)⟩, ⟨["a", "b"], some (37 * 86400)⟩,
   ⟨["a", "b"], some (37 * 86400)⟩,
   ⟨["a", "b"], some 0⟩, ⟨["a", "b"], some 0⟩, ⟨["a", "b"], some 0⟩,
   ⟨["a", "b"], some 0⟩, ⟨["a", "b"], some 0⟩]

/-- C4 counterexample: with 5 records in each window and zero qualifying
rising edges, the code falls back, but the reported `fallback_reason` is the
same generic `"insufficient_window_samples"` string as in the
insufficient-samples case, not the distinct reason "no rising edges found"
that the claim requires. -/
theorem claim_C4_counterexample :
    find_rising_edges itemsC4 7 30 10 =
      ([⟨"a", "b", ⟨0, 0⟩, Details.fallback 10 "insufficient_window_samples"⟩],
       { anchor_now := some (37 * 86400), recent_count := 5, historical_count := 5,
         total_count := 10, recent_edges_count := some 1,
         historical_edges_count := some 1, mode := "fallback" }) ∧
    "insufficient_window_samples" ≠ "no rising edges found" := by
  exact ⟨by decide, by decide⟩

/-- C4 (amended): when both windows hold at least 5 records but no edge
qualifies as rising, `find_rising_edges` falls back with mode `"fallback"`,
and every returned entry reports `fallback_reason =
"insufficient_window_samples"` — the same string as the insufficient-samples
guard, so the two fallback causes are not distinguishable from the reported
reason. -/
theorem claim_C4 (items : List Item) (rd hd : Int) (n : Nat)
    (hne : itemsWithTime items ≠ [])
    (hbig : ¬ ((winState items rd hd).recent_count < 5 ∨
      (winState items rd hd).historical_count < 5))
    (hempty : risingListOf (winState items rd hd) = []) :
    (find_rising_edges items rd hd n).2.mode = "fallback" ∧
    (find_rising_edges items rd hd n).2 =
      { computedStats items rd hd with mode := "fallback" } ∧
    (∀ e ∈ (find_rising_edges items rd hd n).1,
      ∃ c, e.details = Details.fallback c "insufficient_window_samples") := by
  have heq := find_rising_edges_norising items rd hd n hne hbig hempty
  rw [heq]
  refine ⟨rfl, rfl, ?_⟩
  intro e he
  obtain ⟨p, hp, rfl⟩ := List.mem_map.mp he
  exact ⟨p.2, rfl⟩

/-- C4 witness: the concrete no-rising-edges input runs through the amended
claim. -/
theorem claim_C4_witness :
    (find_rising_edges itemsC4 7 30 10).2.mode = "fallback" :=
  (claim_C4 itemsC4 7 30 10 (by decide) (by decide) (by decide)).1

/-- C6: in rising mode, every returned entry's score is exactly
`(recent_weight - historical_weight) / (historical_weight + 1)` for its
pair's window weights, the entry qualifies only with `growth > 0` and
`recent_weight >= 2`, and its details carry those weights; in particular an
edge with `recent_weight = 4`, `historical_weight = 1` has growth `3/2` and
passes both filters. -/
theorem claim_C6 :
    (∀ (items : List Item) (rd hd : Int) (n : Nat) (e : EdgeOut),
      itemsWithTime items ≠ [] →
      ¬ ((winState items rd hd).recent_count < 5 ∨
        (winState items rd hd).historical_count < 5) →
      risingListOf (winState items rd hd) ≠ [] →
      e ∈ (find_rising_edges items rd hd n).1 →
      ∃ rw hw : Nat,
        rw = getCount (winState items rd hd).recent_edges (e.tag1, e.tag2) ∧
        hw = getCount (winState items rd hd).historical_edges (e.tag1, e.tag2) ∧
        e.score = growthOf rw hw ∧
        e.score.toRat = ((rw : Rat) - (hw : Rat)) / ((hw : Rat) + 1) ∧
        e.details = Details.rising rw hw e.score ∧
        2 ≤ rw ∧ 0 < e.score.toRat) ∧
    (growthOf 4 1).toRat = 3 / 2 ∧ 0 < (growthOf 4 1).toRat ∧ (2 : Nat) ≤ 4 := by
  refine ⟨?_, ?_, ?_, by omega⟩
  · intro items rd hd n e hne hg hr he
    rw [find_rising_edges_rising items rd hd n hne hg hr] at he
    simp only at he
    have he2 : e ∈ sortRising (risingListOf (winState items rd hd)) :=
      List.mem_of_mem_take he
    have he3 : e ∈ risingListOf (winState items rd hd) :=
      (sortRising_perm _).mem_iff.mp he2
    obtain ⟨pr, hpr, hpos, h2, rfl⟩ := (mem_risingListOf _ e).mp he3
    refine ⟨getCount (winState items rd hd).recent_edges pr,
      getCount (winState items rd hd).historical_edges pr, ?_, ?_, rfl, ?_, rfl, h2, ?_⟩
    · show getCount _ pr = getCount _ (pr.1, pr.2)
      rw [Prod.mk.eta]
    · show getCount _ pr = getCount _ (pr.1, pr.2)
      rw [Prod.mk.eta]
    · exact growthOf_toRat _ _
    · exact (Growth.toRat_pos_iff _).mpr hpos
  · rw [growthOf_toRat]
    norm_num
  · rw [growthOf_toRat]
    norm_num

/-- Five recent records with pair `(a,b)` and five historical records with
pair `(c,d)`: a concrete rising-mode input with one qualifying edge. -/
def itemsC6 : List Item :=
  [⟨["a", "b"], some (37 * 86400)⟩, ⟨["a", "b"], some (37 * 86400)⟩,
   ⟨["a", "b"], some (37 * 86400)⟩, ⟨["a", "b"], some (37 * 86400)⟩,
   ⟨["a", "b"], some (37 * 86400)⟩,
   ⟨["c", "d"], some 0⟩, ⟨["c", "d"], some 0⟩, ⟨["c", "d"], some 0⟩,
   ⟨["c", "d"], some 0⟩, ⟨["c", "d"], some 0⟩]

/-- C6 witness: the rising entry of the concrete rising-mode run satisfies
the growth-formula and filter properties. -/
theorem claim_C6_witness :
    ∃ rw hw : Nat,
      rw = getCount (winState itemsC6 7 30).recent_edges
        ((⟨"a", "b", ⟨5, 0⟩, Details.rising 5 0 ⟨5, 0⟩⟩ : EdgeOut).tag1,
         (⟨"a", "b", ⟨5, 0⟩, Details.rising 5 0 ⟨5, 0⟩⟩ : EdgeOut).tag2) ∧
      hw = getCount (winState itemsC6 7 30).historical_edges
        ((⟨"a", "b", ⟨5, 0⟩, Details.rising 5 0 ⟨5, 0⟩⟩ : EdgeOut).tag1,
         (⟨"a", "b", ⟨5, 0⟩, Details.rising 5 0 ⟨5, 0⟩⟩ : EdgeOut).tag2) ∧
      (⟨"a", "b", ⟨5, 0⟩, Details.rising 5 0 ⟨5, 0⟩⟩ : EdgeOut).score = growthOf rw hw ∧
      (⟨"a", "b", ⟨5, 0⟩, Details.rising 5 0 ⟨5, 0⟩⟩ : EdgeOut).score.toRat =
        ((rw : Rat) - (hw : Rat)) / ((hw : Rat) + 1) ∧
      (⟨"a", "b", ⟨5, 0⟩, Details.rising 5 0 ⟨5, 0⟩⟩ : EdgeOut).details =
        Details.rising rw hw (⟨"a", "b", ⟨5, 0⟩, Details.rising 5 0 ⟨5, 0⟩⟩ : EdgeOut).score ∧
      2 ≤ rw ∧ 0 < (⟨"a", "b", ⟨5, 0⟩, Details.rising 5 0 ⟨5, 0⟩⟩ : EdgeOut).score.toRat :=
  claim_C6.1 itemsC6 7 30 10 ⟨"a", "b", ⟨5, 0⟩, Details.rising 5 0 ⟨5, 0⟩⟩
    (by decide) (by decide) (by decide) (by decide)

/-- Two equal-growth, equal-recent-weight edges where the pair that is
lexicographically larger was inserted first, plus a filtered
single-occurrence edge and five historical records. -/
def itemsC7 : List Item :=
  [⟨["b", "c"], some (37 * 86400)⟩, ⟨["b", "c"], some (37 * 86400)⟩,
   ⟨["a", "d"], some (37 * 86400)⟩, ⟨["a", "d"], some (37 * 86400)⟩,
   ⟨["e", "f"], some (37 * 86400)⟩,
   ⟨["g", "h"], some 0⟩, ⟨["g", "h"], some 0⟩, ⟨["g", "h"], some 0⟩,
   ⟨["g", "h"], some 0⟩, ⟨["g", "h"], some 0⟩]

/-- C7 counterexample: the sort has no secondary key.  On this input both
returned edges have identical growth (2) and identical recent weight (2),
yet `("b","c")` precedes `("a","d")` although `("a","d")` is the
lexicographically smaller pair — the claimed recent-weight/tag-pair
tie-break does not exist (the tie order is the iteration order of a Python
set, which is hash-dependent and not even stable across interpreter runs). -/
theorem claim_C7_counterexample :
    (find_rising_edges itemsC7 7 30 10).1 =
      [⟨"b", "c", ⟨2, 0⟩, Details.rising 2 0 ⟨2, 0⟩⟩,
       ⟨"a", "d", ⟨2, 0⟩, Details.rising 2 0 ⟨2, 0⟩⟩] ∧
    pyLt "a" "b" = true := by
  exact ⟨by decide, by decide⟩

/-- C7 (amended): in rising mode the returned list is the stable descending
sort of the qualifying edges by growth score truncated to `top_n`: scores
are non-increasing along the output.  Ties keep the edge-iteration order
(modelled here as first-occurrence order; in CPython it is the
hash-dependent set order), not the claimed recent-weight/tag-pair order.
Within this model the function is deterministic. -/
theorem claim_C7 (items : List Item) (rd hd : Int) (n : Nat)
    (hne : itemsWithTime items ≠ [])
    (hg : ¬ ((winState items rd hd).recent_count < 5 ∨
      (winState items rd hd).historical_count < 5))
    (hr : risingListOf (winState items rd hd) ≠ []) :
    ((find_rising_edges items rd hd n).1).Pairwise
      (fun a b => b.score.toRat ≤ a.score.toRat) ∧
    (find_rising_edges items rd hd n).1 =
      (sortRising (risingListOf (winState items rd hd))).take n := by
  have heq := find_rising_edges_rising items rd hd n hne hg hr
  rw [heq]
  refine ⟨?_, rfl⟩
  have hp := sortRising_pairwise (risingListOf (winState items rd hd))
  have hp2 := hp.sublist (List.take_sublist n _)
  refine hp2.imp ?_
  intro a b hab
  rw [Growth.toRat_le_iff]
  exact hab

/-- C7 witness: sortedness of a concrete rising-mode output. -/
theorem claim_C7_witness :
    ((find_rising_edges itemsC7 7 30 10).1).Pairwise
      (fun a b => b.score.toRat ≤ a.score.toRat) :=
  (claim_C7 itemsC7 7 30 10 (by decide) (by decide) (by decide)).1

/-- C3 counterexample: a non-empty input whose only multi-tag record has no
parseable timestamp, while some other record has one.  The window fallback
then runs over the global counter restricted to parseable records, which is
empty, and the function returns an empty edge list even though a tag pair
exists in the data. -/
theorem claim_C3_counterexample :
    (find_rising_edges [⟨["x"], some 0⟩, ⟨["a", "b"], none⟩] 7 30 10).1 = [] ∧
    (⟨["a", "b"], none⟩ : Item) ∈
      [(⟨["x"], some 0⟩ : Item), ⟨["a", "b"], none⟩] ∧
    "a" ≠ "b" := by
  exact ⟨by decide, by decide, by decide⟩

/-- C3 (amended): with `top_n ≥ 1`, the result is non-empty whenever either
some record with a parseable timestamp has at least two tags, or no record
has a parseable timestamp and some record has at least two tags.  (If the
only multi-tag records are unparseable-timestamp ones while parseable
records exist, the result can be empty.) -/
theorem claim_C3 (items : List Item) (rd hd : Int) (n : Nat)
    (hn : 1 ≤ n)
    (h : (∃ it ∈ items, it.time ≠ none ∧ 2 ≤ it.tags.length) ∨
      (itemsWithTime items = [] ∧ ∃ it ∈ items, 2 ≤ it.tags.length)) :
    (find_rising_edges items rd hd n).1 ≠ [] := by
  rcases h with ⟨it, hit, htime, h2⟩ | ⟨hempty, it, hit, h2⟩
  · obtain ⟨t, ht⟩ := Option.ne_none_iff_exists'.mp htime
    have hmem : (it, t) ∈ itemsWithTime items := by
      unfold itemsWithTime
      rw [List.mem_filterMap]
      exact ⟨it, hit, by simp [ht]⟩
    have hne : itemsWithTime items ≠ [] := by
      intro hc
      rw [hc] at hmem
      simp at hmem
    have hall : (winState items rd hd).all_edges ≠ [] :=
      winState_all_edges_ne_nil items rd hd ⟨(it, t), hmem, h2⟩
    by_cases hg : (winState items rd hd).recent_count < 5 ∨
        (winState items rd hd).historical_count < 5
    · rw [find_rising_edges_guard items rd hd n hne hg]
      intro hc
      simp only [fallback_top_edges] at hc
      rw [List.map_eq_nil_iff] at hc
      exact mostCommon_ne_nil _ _ hall hn hc
    · by_cases hr : risingListOf (winState items rd hd) = []
      · rw [find_rising_edges_norising items rd hd n hne hg hr]
        intro hc
        simp only [fallback_top_edges] at hc
        rw [List.map_eq_nil_iff] at hc
        exact mostCommon_ne_nil _ _ hall hn hc
      · rw [find_rising_edges_rising items rd hd n hne hg hr]
        simp only
        intro hc
        have hsne : sortRising (risingListOf (winState items rd hd)) ≠ [] := by
          intro h0
          exact hr ((h0 ▸ sortRising_perm (risingListOf (winState items rd hd))).symm.eq_nil)
        have hlen : 0 < (sortRising (risingListOf (winState items rd hd))).length :=
          List.length_pos.mpr hsne
        have hc2 := congrArg List.length hc
        simp only [List.length_take, List.length_nil] at hc2
        omega
  · rw [find_rising_edges_notime items rd hd n hempty]
    have hall : (items.foldl (fun c it =>
        if 2 ≤ it.tags.length then (tagPairs it.tags).foldl bump c else c)
        ([] : List ((String × String) × Nat))) ≠ [] := by
      apply foldl_reach _
        (fun c : List ((String × String) × Nat) => c ≠ []) ?_ ?_ items hit
      · intro c a hc
        by_cases hca : 2 ≤ a.tags.length
        · simpa [hca] using foldl_bump_ne_nil_of_ne_nil _ _ hc
        · simpa [hca] using hc
      · intro c
        simp only [h2, if_true]
        exact foldl_bump_ne_nil_of_list_ne_nil _ _ (tagPairs_ne_nil _ h2)
    intro hc
    simp only [fallback_top_edges] at hc
    rw [List.map_eq_nil_iff] at hc
    exact mostCommon_ne_nil _ _ hall hn hc

/-- C3 witness: concrete non-empty guarantee through a parseable multi-tag
record. -/
theorem claim_C3_witness :
    (find_rising_edges [⟨["a", "b"], some 0⟩] 7 30 1).1 ≠ [] :=
  claim_C3 [⟨["a", "b"], some 0⟩] 7 30 1 (by decide)
    (Or.inl ⟨⟨["a", "b"], some 0⟩, by decide, by decide, by decide⟩)
